import Mathlib

/-!
# Line-coding codec engine: shallow embedding and verification

This file embeds the codec engine of the `line-lumi` repository
(`src/utils/encoders.ts`, `src/utils/decoders.ts`, the decoder/noise
modules of `src/utils/hdb3-test-runner.ts`) in Lean 4 and proves or
refutes the specified properties.

Modelling conventions:
* A bit string over `{0,1}` is a `List Bool` (`true` is the character
  `'1'`, `false` is `'0'`); decoders likewise return `List Bool`.
* Voltage samples are rationals (`ℚ`).  On every value the claims touch
  (±amplitude, 0, thresholds `0.5 * amplitude` and `0.1`) JavaScript
  float arithmetic is exact, so `ℚ` is a faithful model: the encoders
  only negate, and the decoders only compare and halve.
* The JavaScript `while (i < samples.length) { ...; i += step }` loops of
  the decoders are written as recursion on the suffix of the sample list
  left to scan, with an explicit fuel argument initialised to
  `samples.length`.  Each loop iteration advances `i` by at least
  `samplesPerBit`, so for `samplesPerBit ≥ 1` the fuel never runs out and
  the model coincides with the source; for `samplesPerBit = 0` the source
  loop does not terminate, and every theorem about a decoder assumes
  `1 ≤ samplesPerBit`.
* `getSampleValue(samples, index)` returns 0 for an out-of-range index;
  on in-range natural indices this is `List.getD samples index 0`, which
  is what the suffix-based decoders use (absolute index `i + off` becomes
  offset `off` into the suffix `samples.drop i`).
-/

/-- The closed scheme enumeration dispatched on by `encode`/`decode`
(`encoders.ts` lines 186–207). -/
inductive EncodingType where
  | NRZ | RZ | NRZI | Manchester | DiffManchester | AMI | B8ZS | HDB3
deriving DecidableEq, Repr

/-- JavaScript `Math.abs` on a (finite) number. -/
def jsAbs (q : ℚ) : ℚ :=
  if q < 0 then -q else q

/-- JavaScript `Math.sign` on a (finite) number. -/
def jsSign (q : ℚ) : ℚ :=
  if 0 < q then 1 else if q < 0 then -1 else 0

/-- `encodeNRZ` (`encoders.ts` lines 3–10): bit 1 ↦ `+amplitude` for a full
bit duration, bit 0 ↦ `-amplitude`. -/
def encodeNRZ (bits : List Bool) (samplesPerBit : ℕ) (amplitude : ℚ) : List ℚ :=
  match bits with
  | [] => []
  | b :: rest =>
      List.replicate samplesPerBit (if b then amplitude else -amplitude) ++
        encodeNRZ rest samplesPerBit amplitude

/-- `encodeRZ` (`encoders.ts` lines 12–24): signal value for the first
`⌊samplesPerBit/2⌋` samples, 0 for the remaining ones. -/
def encodeRZ (bits : List Bool) (samplesPerBit : ℕ) (amplitude : ℚ) : List ℚ :=
  match bits with
  | [] => []
  | b :: rest =>
      List.replicate (samplesPerBit / 2) (if b then amplitude else -amplitude) ++
        List.replicate (samplesPerBit - samplesPerBit / 2) 0 ++
        encodeRZ rest samplesPerBit amplitude

/-- Loop of `encodeNRZI` (`encoders.ts` lines 26–39), carrying
`currentLevel`. -/
def encodeNRZIgo (samplesPerBit : ℕ) (currentLevel : ℚ) : List Bool → List ℚ
  | [] => []
  | b :: rest =>
      let level := if b then -currentLevel else currentLevel
      List.replicate samplesPerBit level ++ encodeNRZIgo samplesPerBit level rest

/-- `encodeNRZI`: transition on 1, hold on 0; `currentLevel` starts at
`+amplitude`. -/
def encodeNRZI (bits : List Bool) (samplesPerBit : ℕ) (amplitude : ℚ) : List ℚ :=
  encodeNRZIgo samplesPerBit amplitude bits

/-- `encodeManchester` (`encoders.ts` lines 41–57): bit 1 is low then high,
bit 0 is high then low. -/
def encodeManchester (bits : List Bool) (samplesPerBit : ℕ) (amplitude : ℚ) : List ℚ :=
  match bits with
  | [] => []
  | b :: rest =>
      (if b then
        List.replicate (samplesPerBit / 2) (-amplitude) ++
          List.replicate (samplesPerBit - samplesPerBit / 2) amplitude
      else
        List.replicate (samplesPerBit / 2) amplitude ++
          List.replicate (samplesPerBit - samplesPerBit / 2) (-amplitude)) ++
        encodeManchester rest samplesPerBit amplitude

/-- Loop of `encodeDiffManchester` (`encoders.ts` lines 59–77): transition
at bit start for 0, always a mid-bit transition. -/
def encodeDiffManchestergo (samplesPerBit : ℕ) (currentLevel : ℚ) :
    List Bool → List ℚ
  | [] => []
  | b :: rest =>
      let startLevel := if b then currentLevel else -currentLevel
      List.replicate (samplesPerBit / 2) startLevel ++
        List.replicate (samplesPerBit - samplesPerBit / 2) (-startLevel) ++
        encodeDiffManchestergo samplesPerBit (-startLevel) rest

/-- `encodeDiffManchester`: `currentLevel` starts at `+amplitude`. -/
def encodeDiffManchester (bits : List Bool) (samplesPerBit : ℕ) (amplitude : ℚ) :
    List ℚ :=
  encodeDiffManchestergo samplesPerBit amplitude bits

/-- Loop of `encodeAMI` (`encoders.ts` lines 79–94), carrying `lastPulse`. -/
def encodeAMIgo (samplesPerBit : ℕ) (lastPulse : ℚ) : List Bool → List ℚ
  | [] => []
  | b :: rest =>
      if b then
        List.replicate samplesPerBit (-lastPulse) ++
          encodeAMIgo samplesPerBit (-lastPulse) rest
      else
        List.replicate samplesPerBit 0 ++ encodeAMIgo samplesPerBit lastPulse rest

/-- `encodeAMI`: alternating pulses for 1s, zero for 0s; `lastPulse` starts
at `-amplitude`. -/
def encodeAMI (bits : List Bool) (samplesPerBit : ℕ) (amplitude : ℚ) : List ℚ :=
  encodeAMIgo samplesPerBit (-amplitude) bits

/-- Loop of `encodeB8ZS` (`encoders.ts` lines 96–136).  The source's guard
`i <= bits.length - 8 && bits.substring(i, i + 8) === '00000000'` is
exactly "the next 8 bits are all 0", i.e. the first pattern below; the
substitution emits `0,0,0,V,B,0,V,B` with `V = lastPulse`,
`B = -lastPulse`, and updates `lastPulse` to `B`. -/
def encodeB8ZSgo (samplesPerBit : ℕ) (lastPulse : ℚ) : List Bool → List ℚ
  | false :: false :: false :: false :: false :: false :: false :: false :: rest =>
      List.replicate samplesPerBit 0 ++ List.replicate samplesPerBit 0 ++
        List.replicate samplesPerBit 0 ++ List.replicate samplesPerBit lastPulse ++
        List.replicate samplesPerBit (-lastPulse) ++ List.replicate samplesPerBit 0 ++
        List.replicate samplesPerBit lastPulse ++
        List.replicate samplesPerBit (-lastPulse) ++
        encodeB8ZSgo samplesPerBit (-lastPulse) rest
  | true :: rest =>
      List.replicate samplesPerBit (-lastPulse) ++
        encodeB8ZSgo samplesPerBit (-lastPulse) rest
  | false :: rest =>
      List.replicate samplesPerBit 0 ++ encodeB8ZSgo samplesPerBit lastPulse rest
  | [] => []

/-- `encodeB8ZS`: AMI with 8-zero substitution; `lastPulse` starts at
`-amplitude`. -/
def encodeB8ZS (bits : List Bool) (samplesPerBit : ℕ) (amplitude : ℚ) : List ℚ :=
  encodeB8ZSgo samplesPerBit (-amplitude) bits

/-- Loop of `encodeHDB3` (`encoders.ts` lines 138–184), carrying
`lastPulse` and `pulseCount`.  A run of 4 zeros is substituted with
`B,0,0,V` when `pulseCount` is even (then `pulseCount` is reset to 1) and
with `0,0,0,V` when it is odd (then `pulseCount` is reset to 0), where
`V = lastPulse` and `B = -lastPulse`; in both cases `lastPulse` is set to
`V`, i.e. stays unchanged. -/
def encodeHDB3go (samplesPerBit : ℕ) (lastPulse : ℚ) (pulseCount : ℕ) :
    List Bool → List ℚ
  | false :: false :: false :: false :: rest =>
      if pulseCount % 2 = 0 then
        List.replicate samplesPerBit (-lastPulse) ++ List.replicate samplesPerBit 0 ++
          List.replicate samplesPerBit 0 ++ List.replicate samplesPerBit lastPulse ++
          encodeHDB3go samplesPerBit lastPulse 1 rest
      else
        List.replicate samplesPerBit 0 ++ List.replicate samplesPerBit 0 ++
          List.replicate samplesPerBit 0 ++ List.replicate samplesPerBit lastPulse ++
          encodeHDB3go samplesPerBit lastPulse 0 rest
  | true :: rest =>
      List.replicate samplesPerBit (-lastPulse) ++
        encodeHDB3go samplesPerBit (-lastPulse) (pulseCount + 1) rest
  | false :: rest =>
      List.replicate samplesPerBit 0 ++
        encodeHDB3go samplesPerBit lastPulse pulseCount rest
  | [] => []

/-- `encodeHDB3`: AMI with 4-zero substitution; `lastPulse` starts at
`-amplitude`, `pulseCount` at 0. -/
def encodeHDB3 (bits : List Bool) (samplesPerBit : ℕ) (amplitude : ℚ) : List ℚ :=
  encodeHDB3go samplesPerBit (-amplitude) 0 bits

/-- `encode` dispatch (`encoders.ts` lines 186–207).  The enumeration is
closed, so the source's `default` branch (which returns `encodeNRZ`) is
unreachable. -/
def encode (bits : List Bool) (encoding : EncodingType) (samplesPerBit : ℕ)
    (amplitude : ℚ) : List ℚ :=
  match encoding with
  | .NRZ => encodeNRZ bits samplesPerBit amplitude
  | .RZ => encodeRZ bits samplesPerBit amplitude
  | .NRZI => encodeNRZI bits samplesPerBit amplitude
  | .Manchester => encodeManchester bits samplesPerBit amplitude
  | .DiffManchester => encodeDiffManchester bits samplesPerBit amplitude
  | .AMI => encodeAMI bits samplesPerBit amplitude
  | .B8ZS => encodeB8ZS bits samplesPerBit amplitude
  | .HDB3 => encodeHDB3 bits samplesPerBit amplitude

/-- Loop of `decodeNRZ` (`decoders.ts` lines 8–17): decision sample at the
bit midpoint, threshold 0, `value > 0` decodes to 1.  `rest` is the suffix
`samples.drop i`; the loop guard `i < samples.length` is `¬rest.isEmpty`. -/
def decodeNRZgo (samplesPerBit : ℕ) : ℕ → List ℚ → List Bool
  | 0, _ => []
  | fuel + 1, rest =>
      if rest.isEmpty then []
      else
        decide (0 < rest.getD (samplesPerBit / 2) 0) ::
          decodeNRZgo samplesPerBit fuel (rest.drop samplesPerBit)

/-- `decodeNRZ`. -/
def decodeNRZ (samples : List ℚ) (samplesPerBit : ℕ) (_amplitude : ℚ) : List Bool :=
  decodeNRZgo samplesPerBit samples.length samples

/-- Loop of `decodeRZ` (`decoders.ts` lines 19–28): decision sample at the
quarter point. -/
def decodeRZgo (samplesPerBit : ℕ) : ℕ → List ℚ → List Bool
  | 0, _ => []
  | fuel + 1, rest =>
      if rest.isEmpty then []
      else
        decide (0 < rest.getD (samplesPerBit / 4) 0) ::
          decodeRZgo samplesPerBit fuel (rest.drop samplesPerBit)

/-- `decodeRZ`. -/
def decodeRZ (samples : List ℚ) (samplesPerBit : ℕ) (_amplitude : ℚ) : List Bool :=
  decodeRZgo samplesPerBit samples.length samples

/-- Loop of `decodeNRZI` (`decoders.ts` lines 30–52) for the iterations
after the first: compare the sign of the current midpoint sample with the
previous one; a sign change decodes to 1. -/
def decodeNRZIgo (samplesPerBit : ℕ) (previousLevel : ℚ) : ℕ → List ℚ → List Bool
  | 0, _ => []
  | fuel + 1, rest =>
      if rest.isEmpty then []
      else
        let currentLevel := rest.getD (samplesPerBit / 2) 0
        decide (jsSign currentLevel ≠ jsSign previousLevel) ::
          decodeNRZIgo samplesPerBit currentLevel fuel (rest.drop samplesPerBit)

/-- `decodeNRZI`: empty input decodes to the empty string; otherwise the
first loop iteration (`i = 0`) unconditionally emits `'0'` and sets
`previousLevel` to the first bit's midpoint sample (the initialisation
`previousLevel = samples[0]` is overwritten there before it is ever
compared). -/
def decodeNRZI (samples : List ℚ) (samplesPerBit : ℕ) (_amplitude : ℚ) : List Bool :=
  if samples.isEmpty then []
  else
    false ::
      decodeNRZIgo samplesPerBit (samples.getD (samplesPerBit / 2) 0)
        samples.length (samples.drop samplesPerBit)

/-- Loop of `decodeManchester` (`decoders.ts` lines 55–73): decision
samples at the quarter and three-quarter points; low-then-high decodes
to 1, anything else to 0. -/
def decodeManchestergo (samplesPerBit : ℕ) : ℕ → List ℚ → List Bool
  | 0, _ => []
  | fuel + 1, rest =>
      if rest.isEmpty then []
      else
        decide (rest.getD (samplesPerBit / 4) 0 < 0 ∧
            0 < rest.getD (3 * samplesPerBit / 4) 0) ::
          decodeManchestergo samplesPerBit fuel (rest.drop samplesPerBit)

/-- `decodeManchester`. -/
def decodeManchester (samples : List ℚ) (samplesPerBit : ℕ) (_amplitude : ℚ) :
    List Bool :=
  decodeManchestergo samplesPerBit samples.length samples

/-- The initial `previousMid` of `decodeDiffManchester` (`decoders.ts`
line 82): `getSampleValue(samples, half / 2)` where `half / 2` is true
(not floored) JavaScript division.  When `half` is odd and `half / 2` is
within range, the array access yields `undefined` (modelled as `none`;
`Math.sign(undefined)` is `NaN`, which compares unequal to everything);
an out-of-range index yields 0 via `getSampleValue`'s guard. -/
def diffManInitPrevMid (samples : List ℚ) (half : ℕ) : Option ℚ :=
  if half % 2 = 0 then some (samples.getD (half / 2) 0)
  else if (samples.length : ℚ) ≤ (half : ℚ) / 2 then some 0
  else none

/-- Loop of `decodeDiffManchester` (`decoders.ts` lines 75–96): a sign
difference between the bit-start sample and the previous mid-bit sample
decodes to 0, sign agreement to 1; `none` (`NaN`) never agrees. -/
def decodeDiffManchestergo (samplesPerBit : ℕ) (previousMid : Option ℚ) :
    ℕ → List ℚ → List Bool
  | 0, _ => []
  | fuel + 1, rest =>
      if rest.isEmpty then []
      else
        let startSample := rest.getD 0 0
        let midSample := rest.getD (samplesPerBit / 2) 0
        (match previousMid with
          | none => false
          | some p => decide (jsSign startSample = jsSign p)) ::
          decodeDiffManchestergo samplesPerBit (some midSample) fuel
            (rest.drop samplesPerBit)

/-- `decodeDiffManchester`. -/
def decodeDiffManchester (samples : List ℚ) (samplesPerBit : ℕ) (_amplitude : ℚ) :
    List Bool :=
  if samples.isEmpty then []
  else
    decodeDiffManchestergo samplesPerBit
      (diffManInitPrevMid samples (samplesPerBit / 2)) samples.length samples

/-- Loop of `decodeAMI` (`decoders.ts` lines 98–109): midpoint sample,
magnitude above `Math.abs(amplitude) * 0.5` decodes to 1. -/
def decodeAMIgo (samplesPerBit : ℕ) (amplitude : ℚ) : ℕ → List ℚ → List Bool
  | 0, _ => []
  | fuel + 1, rest =>
      if rest.isEmpty then []
      else
        decide (jsAbs amplitude * (1 / 2) < jsAbs (rest.getD (samplesPerBit / 2) 0)) ::
          decodeAMIgo samplesPerBit amplitude fuel (rest.drop samplesPerBit)

/-- `decodeAMI`. -/
def decodeAMI (samples : List ℚ) (samplesPerBit : ℕ) (amplitude : ℚ) : List Bool :=
  decodeAMIgo samplesPerBit amplitude samples.length samples

/-- Whether the decision slot of the `k`-th bit-duration of the suffix
`rest` holds a pulse: magnitude of the sample at `k * samplesPerBit +
⌊samplesPerBit/2⌋` above `Math.abs(amplitude) * 0.5` (the `bit0 … bit7` tests of
`decodeB8ZS`/`decodeHDB3`). -/
def slotPulse (samplesPerBit : ℕ) (amplitude : ℚ) (rest : List ℚ) (k : ℕ) : Bool :=
  decide (jsAbs amplitude * (1 / 2) < jsAbs (rest.getD (k * samplesPerBit + samplesPerBit / 2) 0))

/-- Loop of `decodeB8ZS` (`hdb3-test-runner.ts` lines 279–312): when at
least 8 bit-durations remain and their decision slots match the magnitude
pattern `0,0,0,pulse,pulse,0,pulse,pulse`, emit `00000000` and skip 8
bit-durations; otherwise decode one bit by the AMI rule. -/
def decodeB8ZSgo (samplesPerBit : ℕ) (amplitude : ℚ) : ℕ → List ℚ → List Bool
  | 0, _ => []
  | fuel + 1, rest =>
      if rest.isEmpty then []
      else if 8 * samplesPerBit ≤ rest.length ∧
          slotPulse samplesPerBit amplitude rest 0 = false ∧
          slotPulse samplesPerBit amplitude rest 1 = false ∧
          slotPulse samplesPerBit amplitude rest 2 = false ∧
          slotPulse samplesPerBit amplitude rest 3 = true ∧
          slotPulse samplesPerBit amplitude rest 4 = true ∧
          slotPulse samplesPerBit amplitude rest 5 = false ∧
          slotPulse samplesPerBit amplitude rest 6 = true ∧
          slotPulse samplesPerBit amplitude rest 7 = true then
        false :: false :: false :: false :: false :: false :: false :: false ::
          decodeB8ZSgo samplesPerBit amplitude fuel (rest.drop (8 * samplesPerBit))
      else
        decide (jsAbs amplitude * (1 / 2) < jsAbs (rest.getD (samplesPerBit / 2) 0)) ::
          decodeB8ZSgo samplesPerBit amplitude fuel (rest.drop samplesPerBit)

/-- `decodeB8ZS`. -/
def decodeB8ZS (samples : List ℚ) (samplesPerBit : ℕ) (amplitude : ℚ) : List Bool :=
  decodeB8ZSgo samplesPerBit amplitude samples.length samples

/-- Loop of `decodeHDB3` (`hdb3-test-runner.ts` lines 314–350): when at
least 4 bit-durations remain and their decision slots match
`pulse,0,0,pulse` (B00V) or `0,0,0,pulse` (000V) by magnitude — no
polarity is consulted — emit `0000` and skip 4 bit-durations; otherwise
decode one bit by the AMI rule. -/
def decodeHDB3go (samplesPerBit : ℕ) (amplitude : ℚ) : ℕ → List ℚ → List Bool
  | 0, _ => []
  | fuel + 1, rest =>
      if rest.isEmpty then []
      else if 4 * samplesPerBit ≤ rest.length ∧
          slotPulse samplesPerBit amplitude rest 1 = false ∧
          slotPulse samplesPerBit amplitude rest 2 = false ∧
          slotPulse samplesPerBit amplitude rest 3 = true then
        false :: false :: false :: false ::
          decodeHDB3go samplesPerBit amplitude fuel (rest.drop (4 * samplesPerBit))
      else
        decide (jsAbs amplitude * (1 / 2) < jsAbs (rest.getD (samplesPerBit / 2) 0)) ::
          decodeHDB3go samplesPerBit amplitude fuel (rest.drop samplesPerBit)

/-- `decodeHDB3`. -/
def decodeHDB3 (samples : List ℚ) (samplesPerBit : ℕ) (amplitude : ℚ) : List Bool :=
  decodeHDB3go samplesPerBit amplitude samples.length samples

/-- `decode` dispatch (`hdb3-test-runner.ts` lines 352–375): empty sample
input decodes to the empty string. -/
def decode (samples : List ℚ) (encoding : EncodingType) (samplesPerBit : ℕ)
    (amplitude : ℚ) : List Bool :=
  if samples.isEmpty then []
  else
    match encoding with
    | .NRZ => decodeNRZ samples samplesPerBit amplitude
    | .RZ => decodeRZ samples samplesPerBit amplitude
    | .NRZI => decodeNRZI samples samplesPerBit amplitude
    | .Manchester => decodeManchester samples samplesPerBit amplitude
    | .DiffManchester => decodeDiffManchester samples samplesPerBit amplitude
    | .AMI => decodeAMI samples samplesPerBit amplitude
    | .B8ZS => decodeB8ZS samples samplesPerBit amplitude
    | .HDB3 => decodeHDB3 samples samplesPerBit amplitude

/-- `addAwgn` (`hdb3-test-runner.ts` lines 164–168).  The Gaussian draws
of `gaussianRandom(0, noiseStd)` are modelled by an oracle `noise` giving
the draw added to the `i`-th sample. -/
def addAwgn (noise : ℕ → ℚ) (samples : List ℚ) (noiseStd : ℚ) : List ℚ :=
  if noiseStd ≤ 0 then samples
  else samples.mapIdx fun i s => s + noise i

/-- `findErrors` (`decoders.ts` lines 132–143): indices below the shorter
length where the two bit strings differ, collected in increasing order. -/
def findErrors (original decoded : List Bool) : List ℕ :=
  (List.range (min original.length decoded.length)).filter
    fun i => original.getD i false ≠ decoded.getD i false

/-- `samplesToSymbols` (`hdb3-test-runner.ts` lines 18–31): the sample at
each bit start, mapped to 0 when its magnitude is below 0.1, else to its
sign (`'+'` is `1`, `'-'` is `-1`). -/
def samplesToSymbolsgo (samplesPerBit : ℕ) : ℕ → List ℚ → List ℤ
  | 0, _ => []
  | fuel + 1, rest =>
      if rest.isEmpty then []
      else
        (if jsAbs (rest.getD 0 0) < 1 / 10 then 0
         else if 0 < rest.getD 0 0 then 1 else -1) ::
          samplesToSymbolsgo samplesPerBit fuel (rest.drop samplesPerBit)

/-- `samplesToSymbols`. -/
def samplesToSymbols (samples : List ℚ) (samplesPerBit : ℕ) : List ℤ :=
  samplesToSymbolsgo samplesPerBit samples.length samples

/-! ## Helper lemmas about bit-duration chunks -/

theorem replicate_append_getD {α : Type} (n i : ℕ) (v d : α) (l : List α)
    (h : i < n) : (List.replicate n v ++ l).getD i d = v := by
  rw [List.getD_append _ _ _ _ (by simpa using h)]
  rw [List.getD_eq_getElem _ _ (by simpa using h)]
  simp

theorem replicate_append_getD_right {α : Type} (n i : ℕ) (v d : α) (l : List α) :
    (List.replicate n v ++ l).getD (n + i) d = l.getD i d := by
  rw [List.getD_append_right _ _ _ _ (by simp)]
  simp

theorem replicate_append_drop {α : Type} (n : ℕ) (v : α) (l : List α) :
    (List.replicate n v ++ l).drop n = l := by
  have h := List.drop_left (List.replicate n v) l
  rwa [List.length_replicate] at h

theorem replicate_append_isEmpty {α : Type} (n : ℕ) (v : α) (l : List α)
    (h : 1 ≤ n) : (List.replicate n v ++ l).isEmpty = false := by
  cases n with
  | zero => omega
  | succ m => simp [List.replicate_succ]

theorem length_pos_not_isEmpty {α : Type} (l : List α) (h : l ≠ []) :
    l.isEmpty = false := by
  cases l with
  | nil => exact absurd rfl h
  | cons a t => rfl

/-! ## Sample-count (length) lemmas, one per encoder -/

theorem encodeNRZ_length (bits : List Bool) (spb : ℕ) (amp : ℚ) :
    (encodeNRZ bits spb amp).length = bits.length * spb := by
  induction bits with
  | nil => simp [encodeNRZ]
  | cons b rest ih => simp [encodeNRZ, ih, Nat.succ_mul, Nat.add_comm]

theorem encodeRZ_length (bits : List Bool) (spb : ℕ) (amp : ℚ) :
    (encodeRZ bits spb amp).length = bits.length * spb := by
  induction bits with
  | nil => simp [encodeRZ]
  | cons b rest ih =>
      have h : spb / 2 ≤ spb := Nat.div_le_self spb 2
      simp [encodeRZ, ih, Nat.succ_mul]
      omega

theorem encodeNRZIgo_length (bits : List Bool) (spb : ℕ) (level : ℚ) :
    (encodeNRZIgo spb level bits).length = bits.length * spb := by
  induction bits generalizing level with
  | nil => simp [encodeNRZIgo]
  | cons b rest ih => simp [encodeNRZIgo, ih, Nat.succ_mul, Nat.add_comm]

theorem encodeManchester_length (bits : List Bool) (spb : ℕ) (amp : ℚ) :
    (encodeManchester bits spb amp).length = bits.length * spb := by
  induction bits with
  | nil => simp [encodeManchester]
  | cons b rest ih =>
      have h : spb / 2 ≤ spb := Nat.div_le_self spb 2
      cases b <;> simp [encodeManchester, ih, Nat.succ_mul] <;> omega

theorem encodeDiffManchestergo_length (bits : List Bool) (spb : ℕ) (level : ℚ) :
    (encodeDiffManchestergo spb level bits).length = bits.length * spb := by
  induction bits generalizing level with
  | nil => simp [encodeDiffManchestergo]
  | cons b rest ih =>
      have h : spb / 2 ≤ spb := Nat.div_le_self spb 2
      simp [encodeDiffManchestergo, ih, Nat.succ_mul]
      omega

theorem encodeAMIgo_length (bits : List Bool) (spb : ℕ) (lastPulse : ℚ) :
    (encodeAMIgo spb lastPulse bits).length = bits.length * spb := by
  induction bits generalizing lastPulse with
  | nil => simp [encodeAMIgo]
  | cons b rest ih =>
      cases b <;> simp [encodeAMIgo, ih, Nat.succ_mul, Nat.add_comm]

theorem encodeB8ZSgo_length (spb : ℕ) (lastPulse : ℚ) (bits : List Bool) :
    (encodeB8ZSgo spb lastPulse bits).length = bits.length * spb := by
  induction lastPulse, bits using encodeB8ZSgo.induct spb with
  | _ => simp_all [encodeB8ZSgo] <;> ring

theorem encodeHDB3go_length (spb : ℕ) (lastPulse : ℚ) (pulseCount : ℕ)
    (bits : List Bool) :
    (encodeHDB3go spb lastPulse pulseCount bits).length = bits.length * spb := by
  induction lastPulse, pulseCount, bits using encodeHDB3go.induct spb with
  | _ => simp_all [encodeHDB3go] <;> ring

theorem encode_length (bits : List Bool) (scheme : EncodingType) (spb : ℕ)
    (amp : ℚ) : (encode bits scheme spb amp).length = bits.length * spb := by
  cases scheme <;>
    simp [encode, encodeNRZ_length, encodeRZ_length, encodeNRZI,
      encodeNRZIgo_length, encodeManchester_length, encodeDiffManchester,
      encodeDiffManchestergo_length, encodeAMI, encodeAMIgo_length, encodeB8ZS,
      encodeB8ZSgo_length, encodeHDB3, encodeHDB3go_length]

/-! ## Signal-level (amplitude range) lemmas, one per encoder -/

theorem mem_replicate_append {α : Type} {n : ℕ} {v x : α} {l : List α}
    (h : x ∈ List.replicate n v ++ l) : x = v ∨ x ∈ l := by
  rcases List.mem_append.1 h with h' | h'
  · exact Or.inl (List.eq_of_mem_replicate h')
  · exact Or.inr h'

theorem mem_encodeNRZ (bits : List Bool) (spb : ℕ) (amp x : ℚ)
    (hx : x ∈ encodeNRZ bits spb amp) : x = amp ∨ x = 0 ∨ x = -amp := by
  induction bits with
  | nil => simp [encodeNRZ] at hx
  | cons b rest ih =>
      simp [encodeNRZ, List.mem_replicate] at hx
      rcases hx with ⟨-, h⟩ | h
      · cases b <;> simp_all
      · exact ih h

theorem mem_encodeRZ (bits : List Bool) (spb : ℕ) (amp x : ℚ)
    (hx : x ∈ encodeRZ bits spb amp) : x = amp ∨ x = 0 ∨ x = -amp := by
  induction bits with
  | nil => simp [encodeRZ] at hx
  | cons b rest ih =>
      simp [encodeRZ, List.mem_replicate] at hx
      rcases hx with ⟨-, h⟩ | ⟨-, h⟩ | h
      · cases b <;> simp_all
      · simp [h]
      · exact ih h

theorem mem_encodeNRZIgo (bits : List Bool) (spb : ℕ) (amp level x : ℚ)
    (hlevel : level = amp ∨ level = -amp)
    (hx : x ∈ encodeNRZIgo spb level bits) : x = amp ∨ x = 0 ∨ x = -amp := by
  induction bits generalizing level with
  | nil => simp [encodeNRZIgo] at hx
  | cons b rest ih =>
      simp [encodeNRZIgo, List.mem_replicate] at hx
      rcases hx with ⟨-, h⟩ | h
      · cases b <;> rcases hlevel with h' | h' <;> simp_all
      · refine ih _ ?_ h
        cases b <;> rcases hlevel with h' | h' <;> simp_all

theorem mem_encodeManchester (bits : List Bool) (spb : ℕ) (amp x : ℚ)
    (hx : x ∈ encodeManchester bits spb amp) : x = amp ∨ x = 0 ∨ x = -amp := by
  induction bits with
  | nil => simp [encodeManchester] at hx
  | cons b rest ih =>
      cases b <;> simp [encodeManchester, List.mem_replicate] at hx <;>
        rcases hx with ⟨-, h⟩ | ⟨-, h⟩ | h <;> simp_all

theorem mem_encodeDiffManchestergo (bits : List Bool) (spb : ℕ) (amp level x : ℚ)
    (hlevel : level = amp ∨ level = -amp)
    (hx : x ∈ encodeDiffManchestergo spb level bits) :
    x = amp ∨ x = 0 ∨ x = -amp := by
  induction bits generalizing level with
  | nil => simp [encodeDiffManchestergo] at hx
  | cons b rest ih =>
      simp [encodeDiffManchestergo, List.mem_replicate] at hx
      rcases hx with ⟨-, h⟩ | ⟨-, h⟩ | h
      · cases b <;> rcases hlevel with h' | h' <;> simp_all
      · cases b <;> rcases hlevel with h' | h' <;> simp_all
      · refine ih _ ?_ h
        cases b <;> rcases hlevel with h' | h' <;> simp_all

theorem mem_encodeAMIgo (bits : List Bool) (spb : ℕ) (amp lastPulse x : ℚ)
    (hlp : lastPulse = amp ∨ lastPulse = -amp)
    (hx : x ∈ encodeAMIgo spb lastPulse bits) : x = amp ∨ x = 0 ∨ x = -amp := by
  induction bits generalizing lastPulse with
  | nil => simp [encodeAMIgo] at hx
  | cons b rest ih =>
      cases b with
      | true =>
          simp [encodeAMIgo, List.mem_replicate] at hx
          rcases hx with ⟨-, h⟩ | h
          · rcases hlp with h' | h' <;> simp [h, h']
          · exact ih (-lastPulse) (by rcases hlp with h' | h' <;> simp [h']) h
      | false =>
          simp [encodeAMIgo, List.mem_replicate] at hx
          rcases hx with ⟨-, h⟩ | h
          · simp [h]
          · exact ih lastPulse hlp h

theorem mem_encodeB8ZSgo (spb : ℕ) (amp : ℚ) (lastPulse : ℚ) (bits : List Bool)
    (hlp : lastPulse = amp ∨ lastPulse = -amp) (x : ℚ)
    (hx : x ∈ encodeB8ZSgo spb lastPulse bits) : x = amp ∨ x = 0 ∨ x = -amp := by
  revert hlp hx
  induction lastPulse, bits using encodeB8ZSgo.induct spb with
  | case1 lp rest ih =>
      intro hlp hx
      rw [encodeB8ZSgo] at hx
      simp only [List.append_assoc] at hx
      have hlp' : -lp = amp ∨ -lp = -amp := by
        rcases hlp with h' | h' <;> simp [h']
      rcases mem_replicate_append hx with h | hx
      · simp [h]
      rcases mem_replicate_append hx with h | hx
      · simp [h]
      rcases mem_replicate_append hx with h | hx
      · simp [h]
      rcases mem_replicate_append hx with h | hx
      · rcases hlp with h' | h' <;> simp [h, h']
      rcases mem_replicate_append hx with h | hx
      · rcases hlp with h' | h' <;> simp [h, h']
      rcases mem_replicate_append hx with h | hx
      · simp [h]
      rcases mem_replicate_append hx with h | hx
      · rcases hlp with h' | h' <;> simp [h, h']
      rcases mem_replicate_append hx with h | hx
      · rcases hlp with h' | h' <;> simp [h, h']
      exact ih hlp' hx
  | case2 lp rest ih =>
      intro hlp hx
      rw [encodeB8ZSgo] at hx
      have hlp' : -lp = amp ∨ -lp = -amp := by
        rcases hlp with h' | h' <;> simp [h']
      rcases mem_replicate_append hx with h | hx
      · rcases hlp with h' | h' <;> simp [h, h']
      exact ih hlp' hx
  | case3 lp rest hno ih =>
      intro hlp hx
      rw [encodeB8ZSgo] at hx
      · rcases mem_replicate_append hx with h | hx
        · simp [h]
        · exact ih hlp hx
      · exact hno
  | case4 lp =>
      intro hlp hx
      simp [encodeB8ZSgo] at hx

theorem mem_encodeHDB3go (spb : ℕ) (amp : ℚ) (lastPulse : ℚ) (pulseCount : ℕ)
    (bits : List Bool) (hlp : lastPulse = amp ∨ lastPulse = -amp) (x : ℚ)
    (hx : x ∈ encodeHDB3go spb lastPulse pulseCount bits) :
    x = amp ∨ x = 0 ∨ x = -amp := by
  revert hlp hx
  induction lastPulse, pulseCount, bits using encodeHDB3go.induct spb with
  | case1 lp pc rest hpc ih =>
      intro hlp hx
      rw [encodeHDB3go, if_pos hpc] at hx
      simp only [List.append_assoc] at hx
      rcases mem_replicate_append hx with h | hx
      · rcases hlp with h' | h' <;> simp [h, h']
      rcases mem_replicate_append hx with h | hx
      · simp [h]
      rcases mem_replicate_append hx with h | hx
      · simp [h]
      rcases mem_replicate_append hx with h | hx
      · rcases hlp with h' | h' <;> simp [h, h']
      exact ih hlp hx
  | case2 lp pc rest hpc ih =>
      intro hlp hx
      rw [encodeHDB3go, if_neg hpc] at hx
      simp only [List.append_assoc] at hx
      rcases mem_replicate_append hx with h | hx
      · simp [h]
      rcases mem_replicate_append hx with h | hx
      · simp [h]
      rcases mem_replicate_append hx with h | hx
      · simp [h]
      rcases mem_replicate_append hx with h | hx
      · rcases hlp with h' | h' <;> simp [h, h']
      exact ih hlp hx
  | case3 lp pc rest ih =>
      intro hlp hx
      rw [encodeHDB3go] at hx
      have hlp' : -lp = amp ∨ -lp = -amp := by
        rcases hlp with h' | h' <;> simp [h']
      rcases mem_replicate_append hx with h | hx
      · rcases hlp with h' | h' <;> simp [h, h']
      exact ih hlp' hx
  | case4 lp pc rest hno ih =>
      intro hlp hx
      rw [encodeHDB3go] at hx
      · rcases mem_replicate_append hx with h | hx
        · simp [h]
        · exact ih hlp hx
      · exact hno
  | case5 lp pc =>
      intro hlp hx
      simp [encodeHDB3go] at hx

theorem mem_encode (bits : List Bool) (scheme : EncodingType) (spb : ℕ)
    (amp x : ℚ) (hx : x ∈ encode bits scheme spb amp) :
    x = amp ∨ x = 0 ∨ x = -amp := by
  cases scheme with
  | NRZ => exact mem_encodeNRZ bits spb amp x hx
  | RZ => exact mem_encodeRZ bits spb amp x hx
  | NRZI => exact mem_encodeNRZIgo bits spb amp amp x (Or.inl rfl) hx
  | Manchester => exact mem_encodeManchester bits spb amp x hx
  | DiffManchester =>
      exact mem_encodeDiffManchestergo bits spb amp amp x (Or.inl rfl) hx
  | AMI => exact mem_encodeAMIgo bits spb amp (-amp) x (Or.inr rfl) hx
  | B8ZS => exact mem_encodeB8ZSgo spb amp (-amp) bits (Or.inr rfl) x hx
  | HDB3 => exact mem_encodeHDB3go spb amp (-amp) 0 bits (Or.inr rfl) x hx

/-! ## Round-trip: noise-free decode ∘ encode for NRZ, RZ, Manchester, AMI -/

theorem isEmpty_false_of_length_pos {α : Type} (l : List α) (h : 0 < l.length) :
    l.isEmpty = false := by
  cases l with
  | nil => simp at h
  | cons a t => rfl

theorem append_getD_left {α : Type} (A l : List α) (i : ℕ) (d : α)
    (h : i < A.length) : (A ++ l).getD i d = A.getD i d :=
  List.getD_append A l d i h

theorem append_drop_length {α : Type} (A l : List α) (n : ℕ) (h : A.length = n) :
    (A ++ l).drop n = l := by
  subst h
  exact List.drop_left A l

theorem jsAbs_eq_abs (q : ℚ) : jsAbs q = |q| := by
  unfold jsAbs
  split_ifs with h
  · exact (abs_of_neg h).symm
  · exact (abs_of_nonneg (le_of_not_lt h)).symm

theorem div4_lt_div2 (spb : ℕ) (h : 2 ≤ spb) : spb / 4 < spb / 2 := by
  omega

theorem decodeNRZgo_nil (spb fuel : ℕ) : decodeNRZgo spb fuel [] = [] := by
  cases fuel <;> simp [decodeNRZgo]

theorem decodeNRZgo_step (spb f : ℕ) (hspb : 1 ≤ spb) (v : ℚ) (l : List ℚ) :
    decodeNRZgo spb (f + 1) (List.replicate spb v ++ l) =
      decide (0 < v) :: decodeNRZgo spb f l := by
  rw [decodeNRZgo, replicate_append_isEmpty _ _ _ hspb]
  simp only [Bool.false_eq_true, if_false]
  rw [replicate_append_getD _ _ _ _ _ (Nat.div_lt_self (by omega) (by omega)),
    replicate_append_drop]

theorem decodeNRZgo_encode (spb : ℕ) (amp : ℚ) (hspb : 1 ≤ spb) (hamp : 0 < amp)
    (bits : List Bool) : ∀ fuel : ℕ, bits.length ≤ fuel →
      decodeNRZgo spb fuel (encodeNRZ bits spb amp) = bits := by
  induction bits with
  | nil => intro fuel _; rw [encodeNRZ, decodeNRZgo_nil]
  | cons b rest ih =>
      intro fuel hfuel
      cases fuel with
      | zero => simp at hfuel
      | succ f =>
          rw [encodeNRZ, decodeNRZgo_step spb f hspb, ih f (by simpa using hfuel)]
          congr 1
          cases b with
          | true => simp [hamp]
          | false =>
              simp only [if_false, Bool.false_eq_true, decide_eq_false_iff_not]
              intro h
              linarith

theorem decodeNRZ_encodeNRZ (spb : ℕ) (amp : ℚ) (hspb : 1 ≤ spb) (hamp : 0 < amp)
    (bits : List Bool) : decodeNRZ (encodeNRZ bits spb amp) spb amp = bits := by
  unfold decodeNRZ
  refine decodeNRZgo_encode spb amp hspb hamp bits _ ?_
  rw [encodeNRZ_length]
  exact Nat.le_mul_of_pos_right _ (by omega)

theorem replicate_getD {α : Type} (n i : ℕ) (v d : α) (h : i < n) :
    (List.replicate n v).getD i d = v := by
  rw [List.getD_eq_getElem _ _ (by simpa using h)]
  simp

theorem decodeRZgo_nil (spb fuel : ℕ) : decodeRZgo spb fuel [] = [] := by
  cases fuel <;> simp [decodeRZgo]

theorem decodeRZgo_step (spb f : ℕ) (hspb : 2 ≤ spb) (v : ℚ) (l : List ℚ) :
    decodeRZgo spb (f + 1)
      ((List.replicate (spb / 2) v ++ List.replicate (spb - spb / 2) 0) ++ l) =
      decide (0 < v) :: decodeRZgo spb f l := by
  have hA : (List.replicate (spb / 2) v ++
      List.replicate (spb - spb / 2) 0).length = spb := by
    simp
    omega
  rw [decodeRZgo, isEmpty_false_of_length_pos _ (by simp [hA]; omega)]
  simp only [Bool.false_eq_true, if_false]
  rw [append_getD_left _ _ _ _ (by rw [hA]; omega),
    replicate_append_getD _ _ _ _ _ (div4_lt_div2 spb hspb),
    append_drop_length _ _ _ hA]

theorem decodeRZ_encodeRZ (spb : ℕ) (amp : ℚ) (hspb : 2 ≤ spb) (hamp : 0 < amp)
    (bits : List Bool) : decodeRZ (encodeRZ bits spb amp) spb amp = bits := by
  unfold decodeRZ
  have key : ∀ (bits : List Bool) (fuel : ℕ), bits.length ≤ fuel →
      decodeRZgo spb fuel (encodeRZ bits spb amp) = bits := by
    intro bits
    induction bits with
    | nil => intro fuel _; rw [encodeRZ, decodeRZgo_nil]
    | cons b rest ih =>
        intro fuel hfuel
        cases fuel with
        | zero => simp at hfuel
        | succ f =>
            rw [encodeRZ, decodeRZgo_step spb f hspb, ih f (by simpa using hfuel)]
            congr 1
            cases b with
            | true => simp [hamp]
            | false =>
                simp only [if_false, Bool.false_eq_true, decide_eq_false_iff_not]
                intro h
                linarith
  refine key bits _ ?_
  rw [encodeRZ_length]
  exact Nat.le_mul_of_pos_right _ (by omega)

theorem decodeManchestergo_nil (spb fuel : ℕ) :
    decodeManchestergo spb fuel [] = [] := by
  cases fuel <;> simp [decodeManchestergo]

theorem decodeManchestergo_step (spb f : ℕ) (hspb : 4 ≤ spb)
    (heven : spb % 2 = 0) (x y : ℚ) (l : List ℚ) :
    decodeManchestergo spb (f + 1)
      ((List.replicate (spb / 2) x ++ List.replicate (spb - spb / 2) y) ++ l) =
      decide (x < 0 ∧ 0 < y) :: decodeManchestergo spb f l := by
  have hA : (List.replicate (spb / 2) x ++
      List.replicate (spb - spb / 2) y).length = spb := by
    simp
    omega
  rw [decodeManchestergo, isEmpty_false_of_length_pos _ (by simp [hA]; omega)]
  simp only [Bool.false_eq_true, if_false]
  rw [append_getD_left _ _ _ _ (by rw [hA]; omega),
    replicate_append_getD _ _ _ _ _ (div4_lt_div2 spb (by omega)),
    append_getD_left _ _ (3 * spb / 4) _ (by rw [hA]; omega),
    List.getD_append_right _ _ _ _ (by simp; omega),
    replicate_getD _ _ _ _ (by simp; omega),
    append_drop_length _ _ _ hA]

theorem decodeManchester_encodeManchester (spb : ℕ) (amp : ℚ) (hspb : 4 ≤ spb)
    (heven : spb % 2 = 0) (hamp : 0 < amp) (bits : List Bool) :
    decodeManchester (encodeManchester bits spb amp) spb amp = bits := by
  unfold decodeManchester
  have key : ∀ (bits : List Bool) (fuel : ℕ), bits.length ≤ fuel →
      decodeManchestergo spb fuel (encodeManchester bits spb amp) = bits := by
    intro bits
    induction bits with
    | nil => intro fuel _; rw [encodeManchester, decodeManchestergo_nil]
    | cons b rest ih =>
        intro fuel hfuel
        cases fuel with
        | zero => simp at hfuel
        | succ f =>
            cases b with
            | true =>
                rw [encodeManchester, if_pos rfl,
                  decodeManchestergo_step spb f hspb heven,
                  ih f (by simpa using hfuel)]
                congr 1
                simp only [decide_eq_true_eq]
                constructor <;> linarith
            | false =>
                rw [encodeManchester, if_neg (by simp),
                  decodeManchestergo_step spb f hspb heven,
                  ih f (by simpa using hfuel)]
                congr 1
                simp only [Bool.false_eq_true, decide_eq_false_iff_not, not_and]
                intro h
                linarith
  refine key bits _ ?_
  rw [encodeManchester_length]
  exact Nat.le_mul_of_pos_right _ (by omega)

theorem decodeAMIgo_nil (spb : ℕ) (amp : ℚ) (fuel : ℕ) :
    decodeAMIgo spb amp fuel [] = [] := by
  cases fuel <;> simp [decodeAMIgo]

theorem decodeAMIgo_step (spb f : ℕ) (amp : ℚ) (hspb : 1 ≤ spb) (p : ℚ)
    (l : List ℚ) :
    decodeAMIgo spb amp (f + 1) (List.replicate spb p ++ l) =
      decide (jsAbs amp * (1 / 2) < jsAbs p) :: decodeAMIgo spb amp f l := by
  rw [decodeAMIgo, replicate_append_isEmpty _ _ _ hspb]
  simp only [Bool.false_eq_true, if_false]
  rw [replicate_append_getD _ _ _ _ _ (Nat.div_lt_self (by omega) (by omega)),
    replicate_append_drop]

theorem decodeAMIgo_encode (spb : ℕ) (amp : ℚ) (hspb : 1 ≤ spb) (hamp : 0 < amp)
    (bits : List Bool) : ∀ (lastPulse : ℚ) (fuel : ℕ), bits.length ≤ fuel →
      (lastPulse = amp ∨ lastPulse = -amp) →
      decodeAMIgo spb amp fuel (encodeAMIgo spb lastPulse bits) = bits := by
  induction bits with
  | nil => intro lp fuel _ _; rw [encodeAMIgo, decodeAMIgo_nil]
  | cons b rest ih =>
      intro lp fuel hfuel hlp
      cases fuel with
      | zero => simp at hfuel
      | succ f =>
          cases b with
          | true =>
              rw [encodeAMIgo, if_pos rfl, decodeAMIgo_step spb f amp hspb,
                ih (-lp) f (by simpa using hfuel)
                  (by rcases hlp with h | h <;> simp [h])]
              congr 1
              simp only [decide_eq_true_eq, jsAbs_eq_abs]
              rcases hlp with h | h <;> subst h <;>
                rw [abs_of_pos hamp] <;> simp [abs_of_pos hamp] <;> linarith
          | false =>
              rw [encodeAMIgo, if_neg (by simp), decodeAMIgo_step spb f amp hspb,
                ih lp f (by simpa using hfuel) hlp]
              congr 1
              simp only [Bool.false_eq_true, decide_eq_false_iff_not, jsAbs_eq_abs]
              rw [abs_of_pos hamp]
              simp
              linarith
  

theorem decodeAMI_encodeAMI (spb : ℕ) (amp : ℚ) (hspb : 1 ≤ spb) (hamp : 0 < amp)
    (bits : List Bool) : decodeAMI (encodeAMI bits spb amp) spb amp = bits := by
  unfold decodeAMI encodeAMI
  refine decodeAMIgo_encode spb amp hspb hamp bits (-amp) _ ?_ (Or.inr rfl)
  rw [encodeAMIgo_length]
  exact Nat.le_mul_of_pos_right _ (by omega)

theorem roundTrip_four_schemes (scheme : EncodingType)
    (hscheme : scheme = .NRZ ∨ scheme = .RZ ∨ scheme = .Manchester ∨
      scheme = .AMI)
    (bits : List Bool) (spb : ℕ) (amp : ℚ) (hbits : bits ≠ [])
    (heven : spb % 2 = 0) (hspb : 4 ≤ spb) (hamp : 0 < amp) :
    decode (encode bits scheme spb amp) scheme spb amp = bits := by
  have hne : (encode bits scheme spb amp).isEmpty = false := by
    refine isEmpty_false_of_length_pos _ ?_
    rw [encode_length]
    have : 0 < bits.length := List.length_pos.2 hbits
    positivity
  rcases hscheme with h | h | h | h <;> subst h <;>
    rw [decode, hne] <;> simp only [Bool.false_eq_true, if_false, encode]
  · exact decodeNRZ_encodeNRZ spb amp (by omega) hamp bits
  · exact decodeRZ_encodeRZ spb amp (by omega) hamp bits
  · exact decodeManchester_encodeManchester spb amp hspb heven hamp bits
  · exact decodeAMI_encodeAMI spb amp (by omega) hamp bits

/-! ## Remaining component-level lemmas -/

theorem encodeHDB3go_four_zeros (spb : ℕ) (lp : ℚ) (pc : ℕ) (rest : List Bool) :
    encodeHDB3go spb lp pc (false :: false :: false :: false :: rest) =
      if pc % 2 = 0 then
        List.replicate spb (-lp) ++ List.replicate spb 0 ++
          List.replicate spb 0 ++ List.replicate spb lp ++
          encodeHDB3go spb lp 1 rest
      else
        List.replicate spb 0 ++ List.replicate spb 0 ++
          List.replicate spb 0 ++ List.replicate spb lp ++
          encodeHDB3go spb lp 0 rest := by
  rw [encodeHDB3go]

theorem encode_spb_zero (bits : List Bool) (scheme : EncodingType) (amp : ℚ) :
    encode bits scheme 0 amp = [] := by
  have h := encode_length bits scheme 0 amp
  rw [Nat.mul_zero] at h
  exact List.eq_nil_of_length_eq_zero h

theorem addAwgn_nonpos (noise : ℕ → ℚ) (samples : List ℚ) (noiseStd : ℚ)
    (h : noiseStd ≤ 0) : addAwgn noise samples noiseStd = samples := by
  unfold addAwgn
  rw [if_pos h]

theorem findErrors_sorted (original decoded : List Bool) :
    List.Pairwise (· < ·) (findErrors original decoded) := by
  unfold findErrors
  exact List.Pairwise.sublist (List.filter_sublist _) (List.pairwise_lt_range _)

theorem mem_findErrors (original decoded : List Bool) (i : ℕ) :
    i ∈ findErrors original decoded ↔
      i < min original.length decoded.length ∧
        original.getD i false ≠ decoded.getD i false := by
  unfold findErrors
  rw [List.mem_filter, List.mem_range]
  simp

theorem decodeNRZI_head (samples : List ℚ) (spb : ℕ) (amp : ℚ)
    (h : samples ≠ []) : (decodeNRZI samples spb amp).head? = some false := by
  unfold decodeNRZI
  rw [length_pos_not_isEmpty _ h]
  simp

/-! ## Claim theorems -/

/-- Claim C1, counterexample: the noise-free round-trip fails on the code
for four of the eight schemes, at even `samplesPerBit = 4`, amplitude 1 and
bit strings of length ≥ 1: NRZI decodes the single bit `1` as `0` (its
first decoded bit is fixed to `0` by convention), DiffManchester decodes
the single bit `0` as `1`, B8ZS mistakes the AMI encoding of `00011011`
for a `000VB0VB` substitution and returns `00000000`, and HDB3 mistakes
the encoding of `0001` for a `000V` substitution and returns `0000`. -/
theorem C1_counterexample :
    decode (encode [true] .NRZI 4 1) .NRZI 4 1 ≠ [true] ∧
    decode (encode [false] .DiffManchester 4 1) .DiffManchester 4 1 ≠ [false] ∧
    decode (encode [false, false, false, true, true, false, true, true]
        .B8ZS 4 1) .B8ZS 4 1 ≠
      [false, false, false, true, true, false, true, true] ∧
    decode (encode [false, false, false, true] .HDB3 4 1) .HDB3 4 1 ≠
      [false, false, false, true] := by
  refine ⟨?_, ?_, ?_, ?_⟩ <;> with_unfolding_all decide

/-- Claim C1, amended: for the schemes NRZ, RZ, Manchester and AMI, every
bit string over `{0,1}` of length ≥ 1, every even `samplesPerBit ≥ 4` and
every positive amplitude, decoding the noise-free encoded samples with the
same scheme and parameters returns the original bit string; the four
remaining schemes (NRZI, DiffManchester, B8ZS, HDB3) violate the
round-trip property. -/
theorem C1_theorem (scheme : EncodingType)
    (hscheme : scheme = .NRZ ∨ scheme = .RZ ∨ scheme = .Manchester ∨
      scheme = .AMI)
    (bits : List Bool) (spb : ℕ) (amp : ℚ) (hbits : bits ≠ [])
    (heven : spb % 2 = 0) (hspb : 4 ≤ spb) (hamp : 0 < amp) :
    decode (encode bits scheme spb amp) scheme spb amp = bits :=
  roundTrip_four_schemes scheme hscheme bits spb amp hbits heven hspb hamp

/-- Claim C1, witness: the amended round-trip at scheme NRZ, bits `10`,
`samplesPerBit = 4`, amplitude 1. -/
theorem C1_witness :
    (EncodingType.NRZ = EncodingType.NRZ ∨ EncodingType.NRZ = .RZ ∨
      EncodingType.NRZ = .Manchester ∨ EncodingType.NRZ = .AMI) ∧
    ([true, false] ≠ ([] : List Bool)) ∧ 4 % 2 = 0 ∧ 4 ≤ 4 ∧ (0 : ℚ) < 1 ∧
    decode (encode [true, false] .NRZ 4 1) .NRZ 4 1 = [true, false] :=
  ⟨Or.inl rfl, by decide, rfl, le_refl 4, by decide,
    C1_theorem .NRZ (Or.inl rfl) [true, false] 4 1 (by decide) rfl
      (le_refl 4) (by decide)⟩

/-- Claim C2, counterexample: with `samplesPerBit = 10` and amplitude 1,
`encodeHDB3 "110000"` does not produce the claimed per-bit symbol pattern
`+ - 0 0 0 -` (the code emits `+ - + 0 0 -`, a B00V substitution, because
its even-`pulseCount` branch emits `B,0,0,V`, not `0,0,0,V`), and
`encodeHDB3 "10000"` does not produce the claimed `+ - 0 0 +` (the code
emits `+ 0 0 0 +`, a 000V substitution). -/
theorem C2_counterexample :
    samplesToSymbols (encodeHDB3 [true, true, false, false, false, false]
        10 1) 10 ≠ [1, -1, 0, 0, 0, -1] ∧
    samplesToSymbols (encodeHDB3 [true, false, false, false, false] 10 1)
        10 ≠ [1, -1, 0, 0, 1] := by
  refine ⟨?_, ?_⟩ <;> with_unfolding_all decide

/-- Claim C2, amended: when the HDB3 encoder substitutes a run of 4
consecutive `0` bits, it emits `B,0,0,V` if the count of ordinary `1`
pulses since the last substitution is even and `0,0,0,V` if that count is
odd (`V` keeping `lastPulse`'s polarity, `B` its opposite); consequently,
with `samplesPerBit = 10` and amplitude 1, `encodeHDB3 "110000"` produces
the per-bit symbol pattern `+ - + 0 0 -` and `encodeHDB3 "10000"` produces
`+ 0 0 0 +`, and both encodings decode back to the original bit string
under `decodeHDB3`. -/
theorem C2_theorem :
    (∀ (spb : ℕ) (lp : ℚ) (pc : ℕ) (rest : List Bool),
        encodeHDB3go spb lp pc (false :: false :: false :: false :: rest) =
          if pc % 2 = 0 then
            List.replicate spb (-lp) ++ List.replicate spb 0 ++
              List.replicate spb 0 ++ List.replicate spb lp ++
              encodeHDB3go spb lp 1 rest
          else
            List.replicate spb 0 ++ List.replicate spb 0 ++
              List.replicate spb 0 ++ List.replicate spb lp ++
              encodeHDB3go spb lp 0 rest) ∧
    samplesToSymbols (encodeHDB3 [true, true, false, false, false, false]
        10 1) 10 = [1, -1, 1, 0, 0, -1] ∧
    decodeHDB3 (encodeHDB3 [true, true, false, false, false, false] 10 1)
        10 1 = [true, true, false, false, false, false] ∧
    samplesToSymbols (encodeHDB3 [true, false, false, false, false] 10 1)
        10 = [1, 0, 0, 0, 1] ∧
    decodeHDB3 (encodeHDB3 [true, false, false, false, false] 10 1) 10 1 =
      [true, false, false, false, false] :=
  ⟨encodeHDB3go_four_zeros, by with_unfolding_all decide,
    by with_unfolding_all decide, by with_unfolding_all decide,
    by with_unfolding_all decide⟩

/-- Claim C3: evaluation of the shipped `decodeHDB3` at the failing input
`bits = "10001"`, `samplesPerBit = 10`, amplitude 1.  The encoder emits
the symbols `+ 0 0 0 -`, whose final pulse continues the normal AMI
alternation, yet the decoder — which matches the `000V`/`B00V` windows by
magnitude only and tracks no expected polarity — decodes the window as a
`0000` substitution and returns `"10000"` instead of `"10001"`. -/
theorem C3_theorem :
    decodeHDB3 (encodeHDB3 [true, false, false, false, true] 10 1) 10 1 =
      [true, false, false, false, false] ∧
    [true, false, false, false, false] ≠ [true, false, false, false, true] := by
  refine ⟨?_, ?_⟩ <;> with_unfolding_all decide

/-- Claim C4: `encode("00000000", B8ZS, 10, 1)` decodes back to
`"00000000"` under `decodeB8ZS`, and its eight per-bit decision slots,
normalized to `{0, 1, -1}`, are `0,0,0,-1,1,0,-1,1`: non-zero pulses
exactly in slots 4, 5, 7 and 8, with `V = -1` (the polarity of the initial
`lastPulse = -amplitude`) and `B = +1` its opposite. -/
theorem C4_theorem :
    decodeB8ZS (encode (List.replicate 8 false) .B8ZS 10 1) 10 1 =
      List.replicate 8 false ∧
    samplesToSymbols (encode (List.replicate 8 false) .B8ZS 10 1) 10 =
      [0, 0, 0, -1, 1, 0, -1, 1] := by
  refine ⟨?_, ?_⟩ <;> with_unfolding_all decide

/-- Claim C5: for every scheme, every bit string, every `samplesPerBit ≥ 1`
and every amplitude, the encoder output has exactly
`length bits * samplesPerBit` samples; in particular the B8ZS and HDB3
substitutions replace k zero-bits with exactly k bit-durations. -/
theorem C5_theorem (bits : List Bool) (scheme : EncodingType) (spb : ℕ)
    (amp : ℚ) (hspb : 1 ≤ spb) :
    (encode bits scheme spb amp).length = bits.length * spb :=
  encode_length bits scheme spb amp

/-- Claim C5, witness: the length invariant at scheme HDB3, bits
`"10000"`, `samplesPerBit = 2`, amplitude 1. -/
theorem C5_witness :
    1 ≤ 2 ∧ (encode [true, false, false, false, false] .HDB3 2 1).length =
      5 * 2 :=
  ⟨by decide, C5_theorem [true, false, false, false, false] .HDB3 2 1
    (by decide)⟩

/-- Claim C6, counterexample: `encode` with `samplesPerBit = 0` neither
fails (it is a total function on the model) nor behaves like
`samplesPerBit = 1`: for bits `"1"` and scheme NRZ it returns the empty
sample sequence while `samplesPerBit = 1` returns `[1]`. -/
theorem C6_counterexample :
    encode [true] .NRZ 0 1 = [] ∧ encode [true] .NRZ 1 1 = [1] ∧
      ([] : List ℚ) ≠ [1] := by
  refine ⟨?_, ?_, ?_⟩ <;> decide

/-- Claim C6, amended: calling `encode` with `samplesPerBit = 0` is
neither rejected nor clamped to 1; for every bit string, scheme and
amplitude it silently returns the empty sample sequence. -/
theorem C6_theorem (bits : List Bool) (scheme : EncodingType) (amp : ℚ) :
    encode bits scheme 0 amp = [] :=
  encode_spb_zero bits scheme amp

/-- Claim C7: for every sample sequence and every `noiseStd ≤ 0`,
`addAwgn` returns its input unchanged — exact identity, for any values of
the Gaussian draws. -/
theorem C7_theorem (noise : ℕ → ℚ) (samples : List ℚ) (noiseStd : ℚ)
    (h : noiseStd ≤ 0) : addAwgn noise samples noiseStd = samples :=
  addAwgn_nonpos noise samples noiseStd h

/-- Claim C7, witness: `addAwgn` at `noiseStd = 0` on the samples `[2]`
with a non-trivial noise oracle. -/
theorem C7_witness :
    (0 : ℚ) ≤ 0 ∧ addAwgn (fun _ => 3) [2] 0 = [2] :=
  ⟨le_refl 0, C7_theorem (fun _ => 3) [2] 0 (le_refl 0)⟩

/-- Claim C8: `findErrors` returns exactly the strictly increasing list of
indices below the shorter of the two lengths at which the bit strings
differ — membership is equivalent to `i < min(|original|, |decoded|)` with
differing bits at `i`, the output is strictly sorted, and the two
spec vectors hold: `findErrors "1010" "1110" = [1]`,
`findErrors "11" "11" = []`. -/
theorem C8_theorem :
    (∀ original decoded : List Bool,
        List.Pairwise (· < ·) (findErrors original decoded)) ∧
    (∀ (original decoded : List Bool) (i : ℕ),
        i ∈ findErrors original decoded ↔
          i < min original.length decoded.length ∧
            original.getD i false ≠ decoded.getD i false) ∧
    findErrors [true, false, true, false] [true, true, true, false] = [1] ∧
    findErrors [true, true] [true, true] = [] :=
  ⟨findErrors_sorted, mem_findErrors, by decide, by decide⟩

/-- Claim C9: for every scheme, bit string, `samplesPerBit ≥ 1` and
positive amplitude, every sample emitted by `encode` is `+amplitude`, `0`
or `-amplitude`. -/
theorem C9_theorem (bits : List Bool) (scheme : EncodingType) (spb : ℕ)
    (amp : ℚ) (hspb : 1 ≤ spb) (hamp : 0 < amp) :
    ∀ x ∈ encode bits scheme spb amp, x = amp ∨ x = 0 ∨ x = -amp :=
  fun x hx => mem_encode bits scheme spb amp x hx

/-- Claim C9, witness: the sample value 1 of `encode "1" NRZ 1 1` is at
one of the three levels. -/
theorem C9_witness :
    1 ≤ 1 ∧ (0 : ℚ) < 1 ∧ (1 : ℚ) ∈ encode [true] .NRZ 1 1 ∧
      ((1 : ℚ) = 1 ∨ (1 : ℚ) = 0 ∨ (1 : ℚ) = -1) :=
  ⟨le_refl 1, by decide, by decide,
    C9_theorem [true] .NRZ 1 1 (le_refl 1) (by decide) 1 (by decide)⟩

/-- Claim C10: for every non-empty sample sequence and `samplesPerBit ≥ 1`,
the first bit returned by `decodeNRZI` is `0` regardless of the sample
values — the decoder fixes it by convention. -/
theorem C10_theorem (samples : List ℚ) (spb : ℕ) (amp : ℚ)
    (h : samples ≠ []) (hspb : 1 ≤ spb) :
    (decodeNRZI samples spb amp).head? = some false :=
  decodeNRZI_head samples spb amp h

/-- Claim C10, witness: `decodeNRZI` on the single positive sample `[5]`
with `samplesPerBit = 1` starts with bit `0`. -/
theorem C10_witness :
    ([(5 : ℚ)] ≠ []) ∧ 1 ≤ 1 ∧ (decodeNRZI [5] 1 1).head? = some false :=
  ⟨by decide, le_refl 1, C10_theorem [5] 1 1 (by decide) (le_refl 1)⟩
